import Mathlib

/-!
Verification development for the tinylazyseq library (src/Sequence.ts and the
AsyncSequence module).

The pipeline classes (`Sequence`, `GeneratorSequence`, `ConcatSequence`,
`ConstrainedSequence`, `DropSequence`, `DropWhileSequence`, `FilteringSequence`,
`MapSequence`, `TakeSequence`, `TakeWhileSequence`) are embedded as an inductive
family `Sequence`.  Each subclass's `[Symbol.iterator]` generator body is
translated into a structurally identical list-recursive "run" function, and
`Sequence.iter` assembles them.  External sources are modelled as the finite
list of values their cursor will produce, together with a flag recording
whether the source exposes a `length`/`size` property.
-/

namespace TinyLazySeq

/--
The pipeline node AST.  One constructor per concrete class of `Sequence.ts`:

* `base values sized` — a plain `Sequence` wrapping an iterable; `sized` records
  whether the wrapped iterable exposes a `length`/`size` property (the
  constructor probes `Utils.isLenghted` / `Utils.isSized` and otherwise stores
  `-1`).
* `generator initial nextValue fuel` — `GeneratorSequence`; `fuel` bounds the
  number of iterations of the (potentially unbounded) `while` loop so that the
  model stays total.  Every concrete terminating use is insensitive to a
  sufficiently large `fuel`.
* `concat sequence other` — `ConcatSequence`.
* `constrained cursor size` — `ConstrainedSequence`; `cursor` is the list of
  values the captured one-shot iterator will produce.  Its mutable `iterated`
  flag is modelled separately by `constrainedIterOnce`.
* `drop`, `dropWhile`, `filter`, `map`, `take`, `takeWhile` — the corresponding
  subclasses; callbacks receive the value and the running index exactly as the
  source passes `(item, index++)`.

The source's `map<U>` may change the element type; JS is untyped and
`ConcatSequence` in fact iterates another node's raw `_values` field (line 555),
which for a `MapSequence` holds values of the UPSTREAM type — a heterogeneous
list that a typed `Sequence α` cannot represent.  The AST therefore specializes
`map` to endomaps; every claim concerns sequences at a single value type, and
`mapRun`/`cmapRun` below keep the type-changing form.
-/
inductive Sequence : Type → Type 1 where
  | base {α : Type} (values : List α) (sized : Bool) : Sequence α
  | generator {α : Type} (initial : α) (nextValue : α → Option α) (fuel : Nat) : Sequence α
  | concat {α : Type} (sequence other : Sequence α) : Sequence α
  | constrained {α : Type} (cursor : List α) (size : Int) : Sequence α
  | drop {α : Type} (sequence : Sequence α) (n : Int) : Sequence α
  | dropWhile {α : Type} (sequence : Sequence α) (predicate : α → Nat → Bool) : Sequence α
  | filter {α : Type} (sequence : Sequence α) (predicate : α → Nat → Bool) : Sequence α
  | map {α : Type} (sequence : Sequence α) (transform : α → Nat → α) : Sequence α
  | take {α : Type} (sequence : Sequence α) (n : Int) : Sequence α
  | takeWhile {α : Type} (sequence : Sequence α) (predicate : α → Nat → Bool) : Sequence α

/--
`Sequence.size` of each node, mirroring the `_size` field computed by each
class constructor (`TakeSequence` lines 690–703, `DropSequence` 583–592,
`FilteringSequence` 624–632, `ConcatSequence` 542–551, `MapSequence` 672–679,
and the base constructor's length/size probe).
-/
def Sequence.size {α : Type} : Sequence α → Int
  | .base values sized => if sized then (values.length : Int) else -1
  | .generator _ _ _ => -1
  | .concat sequence other =>
      if Sequence.size sequence < 0 ∨ Sequence.size other < 0 then -1
      else Sequence.size sequence + Sequence.size other
  | .constrained _ size => size
  | .drop sequence n =>
      if Sequence.size sequence < 0 then -1
      else if Sequence.size sequence - n < 0 then 0 else Sequence.size sequence - n
  | .dropWhile _ _ => -1
  | .filter _ _ => -1
  | .map sequence _ => Sequence.size sequence
  | .take sequence n =>
      if Sequence.size sequence < 0 then -1
      else if n > Sequence.size sequence then Sequence.size sequence else n
  | .takeWhile _ _ => -1

/--
`GeneratorSequence[Symbol.iterator]`'s `while` loop (lines 531–539): repeatedly
apply `nextValue` to `current`, yielding each non-null result, stopping when
`nextValue` returns null (`none`).  `fuel` bounds the loop in the model.
-/
def genRun {α : Type} (nextValue : α → Option α) : α → Nat → List α
  | _, 0 => []
  | current, fuel + 1 =>
      match nextValue current with
      | none => []
      | some next => next :: genRun nextValue next fuel

/--
`DropSequence[Symbol.iterator]` (lines 594–601): `if (dropped++ >= this.n) yield value`.
-/
def dropRun {α : Type} (n : Int) : List α → Nat → List α
  | [], _ => []
  | value :: rest, dropped =>
      if (dropped : Int) ≥ n then value :: dropRun n rest (dropped + 1)
      else dropRun n rest (dropped + 1)

/--
`DropWhileSequence[Symbol.iterator]` (lines 614–622):
`if (!this.predicate(value, index++)) yielding = true; if (yielding) yield value;`.
-/
def dropWhileRun {α : Type} (predicate : α → Nat → Bool) : List α → Bool → Nat → List α
  | [], _, _ => []
  | value :: rest, yielding, index =>
      let yielding' := if ¬ predicate value index then true else yielding
      if yielding' then value :: dropWhileRun predicate rest yielding' (index + 1)
      else dropWhileRun predicate rest yielding' (index + 1)

/--
`FilteringSequence[Symbol.iterator]` (lines 634–639):
`if (this.predicate(value, index++)) yield value`.
-/
def filterRun {α : Type} (predicate : α → Nat → Bool) : List α → Nat → List α
  | [], _ => []
  | value :: rest, index =>
      if predicate value index then value :: filterRun predicate rest (index + 1)
      else filterRun predicate rest (index + 1)

/--
`MapSequence[Symbol.iterator]` (lines 682–687): `yield this.transform(value, index++)`.
-/
def mapRun {α β : Type} (transform : α → Nat → β) : List α → Nat → List β
  | [], _ => []
  | value :: rest, index => transform value index :: mapRun transform rest (index + 1)

/--
`TakeSequence[Symbol.iterator]` (lines 705–713):
`if (taken++ < this.n) { yield value; } else break;`.
-/
def takeRun {α : Type} (n : Int) : List α → Nat → List α
  | [], _ => []
  | value :: rest, taken =>
      if (taken : Int) < n then value :: takeRun n rest (taken + 1)
      else []

/--
`TakeWhileSequence[Symbol.iterator]` (lines 726–734):
`if (!this.predicate(value, index++)) yielding = false; if (!yielding) break; yield value;`.
-/
def takeWhileRun {α : Type} (predicate : α → Nat → Bool) : List α → Bool → Nat → List α
  | [], _, _ => []
  | value :: rest, yielding, index =>
      let yielding' := if ¬ predicate value index then false else yielding
      if ¬ yielding' then []
      else value :: takeWhileRun predicate rest yielding' (index + 1)

mutual

/--
The values one full traversal of a pipeline yields, assembling each class's
generator body.  For `constrained` this is the first (successful) traversal;
the `iterated` flag is modelled by `constrainedIterOnce` below.
-/
def Sequence.iter {α : Type} : Sequence α → List α
  | .base values _ => values
  | .generator initial nextValue fuel => initial :: genRun nextValue initial fuel
  | .concat sequence other => Sequence.iter sequence ++ Sequence.rawValues other
  | .constrained cursor _ => cursor
  | .drop sequence n => dropRun n (Sequence.iter sequence) 0
  | .dropWhile sequence predicate => dropWhileRun predicate (Sequence.iter sequence) false 0
  | .filter sequence predicate => filterRun predicate (Sequence.iter sequence) 0
  | .map sequence transform => mapRun transform (Sequence.iter sequence) 0
  | .take sequence n => takeRun n (Sequence.iter sequence) 0
  | .takeWhile sequence predicate => takeWhileRun predicate (Sequence.iter sequence) true 0

/--
What `yield* this.other["_values"]` produces (`ConcatSequence`, line 555): the
raw `_values` field of a node, iterated directly — NOT the node's own
`[Symbol.iterator]`.  For a plain `Sequence` the field is the wrapped iterable
itself; every derived class passed its upstream sequence (or `[]`) to `super`,
so iterating the field runs the upstream's iterator and skips the derived
node's own transformation.
-/
def Sequence.rawValues {α : Type} : Sequence α → List α
  | .base values _ => values
  | .generator _ _ _ => []
  | .concat sequence _ => Sequence.iter sequence
  | .constrained _ _ => []
  | .drop sequence _ => Sequence.iter sequence
  | .dropWhile sequence _ => Sequence.iter sequence
  | .filter sequence _ => Sequence.iter sequence
  | .map sequence _ => Sequence.iter sequence
  | .take sequence _ => Sequence.iter sequence
  | .takeWhile sequence _ => Sequence.iter sequence

end

/-- `Sequence.of(...args)`: wraps the argument pack, size = argument count. -/
def Sequence.ofValues {α : Type} (values : List α) : Sequence α :=
  Sequence.base values true

/-- `Sequence.from(source)` on a re-iterable source: size from the length/size probe. -/
def Sequence.fromIterable {α : Type} (values : List α) (hasLength : Bool) : Sequence α :=
  Sequence.base values hasLength

/-- `Sequence.from(source)` on a bare iterator: a `ConstrainedSequence` with size `-1`. -/
def Sequence.fromIterator {α : Type} (cursor : List α) : Sequence α :=
  Sequence.constrained cursor (-1)

/-- `Sequence.empty()`: `new Sequence([], 0)`. -/
def Sequence.emptySeq (α : Type) : Sequence α :=
  Sequence.base [] true

/-- `Sequence.generate(initial, nextValue)` (model truncated at `fuel` loop iterations). -/
def Sequence.gen {α : Type} (initial : α) (nextValue : α → Option α) (fuel : Nat) : Sequence α :=
  Sequence.generator initial nextValue fuel

/--
`Sequence.constrainOnce()` (lines 115–117): wraps `this[Symbol.iterator]()` —
the cursor that will produce this pipeline's values — and `this.size()`.
-/
def Sequence.constrainOnce {α : Type} (s : Sequence α) : Sequence α :=
  Sequence.constrained (Sequence.iter s) (Sequence.size s)

/-- The message of `Utils.IllegalStateError` thrown by `ConstrainedSequence` (line 569). -/
def illegalStateMessage : String :=
  "attempted to iterate a constrained sequence more than once"

/--
One traversal attempt of a `ConstrainedSequence`, mirroring its generator body
(lines 567–580): `if (this.iterated) throw new Utils.IllegalStateError(...);
this.iterated = true;` then pump the captured cursor.  The argument is the
`iterated` flag before the attempt; the result pairs the outcome (the thrown
error, or the values the traversal will yield) with the updated flag.
-/
def constrainedIterOnce {α : Type} (cursor : List α) (iterated : Bool) :
    Except String (List α) × Bool :=
  if iterated then (Except.error illegalStateMessage, iterated)
  else (Except.ok cursor, true)

/-! ## Terminal operations (synchronous) -/

/-- `Sequence.isEmpty` (lines 334–337): `for (const _ of this) return false; return true;`. -/
def Sequence.isEmptyModel {α : Type} (s : Sequence α) : Bool :=
  match Sequence.iter s with
  | [] => true
  | _ :: _ => false

/-- `Sequence.first` (lines 263–266): `for (const item of this) return item; return undefined;`. -/
def Sequence.firstModel {α : Type} (s : Sequence α) : Option α :=
  match Sequence.iter s with
  | [] => none
  | item :: _ => some item

/-- Loop of `Sequence.find` (lines 209–215): `if (predicate(item, index++)) return item`. -/
def findRun {α : Type} (predicate : α → Nat → Bool) : List α → Nat → Option α
  | [], _ => none
  | item :: rest, index =>
      if predicate item index then some item else findRun predicate rest (index + 1)

/-- Loop of `Sequence.findIndex` (lines 221–228): `if (predicate(item)) return index; index++`. -/
def findIndexRun {α : Type} (predicate : α → Bool) : List α → Nat → Int
  | [], _ => -1
  | item :: rest, index =>
      if predicate item then (index : Int) else findIndexRun predicate rest (index + 1)

/-- `Sequence.findIndex`. -/
def Sequence.findIndexModel {α : Type} (s : Sequence α) (predicate : α → Bool) : Int :=
  findIndexRun predicate (Sequence.iter s) 0

/-- Loop of `Sequence.contains` (lines 89–96): `if (item === value) return true`. -/
def containsRun {α : Type} [DecidableEq α] : List α → α → Bool
  | [], _ => false
  | item :: rest, value => if item = value then true else containsRun rest value

/-- `Sequence.contains`. -/
def Sequence.containsModel {α : Type} [DecidableEq α] (s : Sequence α) (value : α) : Bool :=
  containsRun (Sequence.iter s) value

/--
Loop of `Sequence.containsAll` (lines 102–109):
`if (!this.contains(value)) return false; ... return true;` — the synchronous
`contains` returns a plain boolean, so the negation is meaningful.
-/
def containsAllRun {α : Type} [DecidableEq α] (elements : List α) : List α → Bool
  | [] => true
  | value :: rest =>
      if ¬ containsRun elements value then false else containsAllRun elements rest

/-- `Sequence.containsAll`. -/
def Sequence.containsAllModel {α : Type} [DecidableEq α]
    (s : Sequence α) (values : List α) : Bool :=
  containsAllRun (Sequence.iter s) values

/-- Loop of `Sequence.fold` (lines 296–303): `result = operation(result, item, index++)`. -/
def foldRun {α β : Type} (operation : β → α → Nat → β) : β → List α → Nat → β
  | result, [], _ => result
  | result, item :: rest, index => foldRun operation (operation result item index) rest (index + 1)

/--
`Sequence.toString` (lines 499–504): probes emptiness by a traversal
(`this.isEmpty()`), then renders the cached size.
-/
def Sequence.toStringModel {α : Type} (s : Sequence α) : String :=
  if Sequence.isEmptyModel s then "Sequence (empty)"
  else
    "Sequence (" ++ (if Sequence.size s < 0 then "unknown"
                     else ToString.toString (Sequence.size s)) ++ ")"

/--
`Sequence.reduce` (lines 429–437) on a receiver whose head is a
`ConstrainedSequence` with captured cursor `cursor`: `if (this.isEmpty()) return null;`
then `let result = this.first() as R;` then `for (const item of this.drop(1)) ...` —
three separate traversals of `this`, each threading the constrained node's
`iterated` flag through `constrainedIterOnce`.
-/
def Sequence.reduceConstrained {α : Type} (cursor : List α)
    (operation : α → α → Nat → α) : Except String (Option α) :=
  match constrainedIterOnce cursor false with
  | (Except.error e, _) => Except.error e
  | (Except.ok values1, iterated1) =>
    if values1.isEmpty then Except.ok none
    else
      match constrainedIterOnce cursor iterated1 with
      | (Except.error e, _) => Except.error e
      | (Except.ok values2, iterated2) =>
        match constrainedIterOnce cursor iterated2 with
        | (Except.error e, _) => Except.error e
        | (Except.ok values3, _) =>
          match values2 with
          | [] => Except.ok none
          | first :: _ =>
            Except.ok (some (foldRun operation first (dropRun 1 values3 0) 0))

/-! ## Pull counting for `take` -/

/--
`TakeSequence[Symbol.iterator]` under a draining consumer, instrumented with the
number of values pulled from the upstream source: each `for`-of step pulls one
value before the `taken++ < n` test decides between `yield` and `break`.
Returns the yielded values and the pull count.
-/
def takeRunCount {α : Type} (n : Int) : List α → Nat → List α × Nat
  | [], _ => ([], 0)
  | value :: rest, taken =>
      if (taken : Int) < n then
        (value :: (takeRunCount n rest (taken + 1)).1,
         (takeRunCount n rest (taken + 1)).2 + 1)
      else ([], 1)

/-! ## Predicate counting for `dropWhile` -/

/--
`DropWhileSequence[Symbol.iterator]` under a draining consumer, instrumented
with the number of predicate invocations: `this.predicate(value, index++)` runs
unconditionally on every pulled value, before and after yielding begins.
-/
def dropWhileRunCount {α : Type} (predicate : α → Nat → Bool) :
    List α → Bool → Nat → List α × Nat
  | [], _, _ => ([], 0)
  | value :: rest, yielding, index =>
      let yielding' := if ¬ predicate value index then true else yielding
      (if yielding' then value :: (dropWhileRunCount predicate rest yielding' (index + 1)).1
       else (dropWhileRunCount predicate rest yielding' (index + 1)).1,
       (dropWhileRunCount predicate rest yielding' (index + 1)).2 + 1)

/-! ## AsyncSequence models

The async variant's callbacks may return `boolean | Promise<boolean>`.  A value
of that union is modelled by `MaybeProm Bool`: either a direct value or a
pending promise carrying the value it will resolve to.  JS condition tests use
TRUTHINESS: a `Promise` object is an object and hence truthy regardless of what
it resolves to, while `await` surfaces the resolved value.
-/

/-- A `T | Promise<T>` union value: direct, or a pending promise resolving to `v`. -/
inductive MaybeProm (α : Type) where
  | direct (v : α) : MaybeProm α
  | promise (v : α) : MaybeProm α
deriving DecidableEq

/-- JS truthiness of a `boolean | Promise<boolean>` value: a promise object is truthy. -/
def MaybeProm.truthy : MaybeProm Bool → Bool
  | .direct b => b
  | .promise _ => true

/-- The value `await` produces. -/
def MaybeProm.awaited {α : Type} : MaybeProm α → α
  | .direct v => v
  | .promise v => v

namespace AsyncSequence

/--
`AsyncSequence.findIndex` (module lines 222–229), over the list of resolved
source values: the body reads `if (predicate(item)) return index;` WITHOUT
awaiting the predicate, so the raw `boolean | Promise<boolean>` return value is
tested for truthiness.
-/
def findIndexRun {α : Type} (predicate : α → MaybeProm Bool) : List α → Nat → Int
  | [], _ => -1
  | item :: rest, index =>
      if (predicate item).truthy then (index : Int)
      else findIndexRun predicate rest (index + 1)

/-- `AsyncSequence.contains` (lines 97–104): properly awaits each source value. -/
def containsModel {α : Type} [DecidableEq α] (elements : List α) (value : α) : Bool :=
  containsRun elements value

/--
`AsyncSequence.containsAll` (lines 110–117): the body reads
`if (!this.contains(value)) { return false; }` WITHOUT awaiting —
`this.contains(value)` is an `async` call and returns a pending
`Promise<boolean>`, so the tested condition is the negation of that promise
object's truthiness.
-/
def containsAllRun {α : Type} [DecidableEq α] (elements : List α) : List α → Bool
  | [] => true
  | value :: rest =>
      if ¬ (MaybeProm.promise (containsModel elements value)).truthy then false
      else containsAllRun elements rest

/--
`AsyncSequence.toString` (lines 505–510): tests `this._size === 0` — the cached
size hint only, no traversal (its only input is the size) — and renders the
size form with the source's literal text (including the `AsyncSquence` typo of
the non-empty branch).
-/
def toStringModel (size : Int) : String :=
  if size = 0 then "AsyncSequence (empty)"
  else
    "AsyncSquence (" ++ (if size < 0 then "unknown" else ToString.toString size) ++ ")"

end AsyncSequence

/-! ## Instrumented (callback-counting) traversal model

Lazy pipelines are instrumented by annotating every produced element with the
number of callback invocations incurred to produce it since the previous
element was produced; a traversal that consumes a prefix of the stream incurs
exactly the sum of the annotations it consumed.  Costs are pairs
`(transform invocations, predicate invocations)`.  A node's exhaustion may also
cost invocations (a trailing run of filtered-out values); functions that can
observe exhaustion account for that tail separately.
-/

/-- An annotated element: the value, transform-call count, predicate-call count. -/
abbrev CElem (β : Type) : Type := β × Nat × Nat

/-- The source iterable: producing each value invokes no callback. -/
def csource {α : Type} : List α → List (CElem α)
  | [] => []
  | value :: rest => (value, 0, 0) :: csource rest

/-- `MapSequence` instrumented: producing an element costs the upstream's cost plus one `transform` call. -/
def cmapRun {α β : Type} (transform : α → Nat → β) : List (CElem α) → Nat → List (CElem β)
  | [], _ => []
  | (value, cf, cp) :: rest, index =>
      (transform value index, cf + 1, cp) :: cmapRun transform rest (index + 1)

/--
`FilteringSequence` instrumented: producing an element pulls upstream values
until one passes, invoking `predicate` once per pulled value; the costs of
rejected values accrue (`accf`, `accp`) onto the next passing element.  The
second result component is the trailing cost of discovering exhaustion past the
last passing element.
-/
def cfilterRun {β : Type} (predicate : β → Nat → Bool) :
    List (CElem β) → Nat → Nat → Nat → List (CElem β) × Nat × Nat
  | [], _, accf, accp => ([], accf, accp)
  | (value, cf, cp) :: rest, index, accf, accp =>
      if predicate value index then
        ((value, accf + cf, accp + cp + 1) :: (cfilterRun predicate rest (index + 1) 0 0).1,
         (cfilterRun predicate rest (index + 1) 0 0).2)
      else cfilterRun predicate rest (index + 1) (accf + cf) (accp + cp + 1)

/--
`Sequence.find`'s loop over an instrumented stream: consume annotated elements
(accumulating their costs) until the predicate matches; report the find result
together with the invocations incurred.  On exhaustion the caller adds the
stream's trailing cost.
-/
def cfindRun {β : Type} (predicate : β → Bool) :
    List (CElem β) → Nat → Nat → Option β × Nat × Nat
  | [], accf, accp => (none, accf, accp)
  | (value, cf, cp) :: rest, accf, accp =>
      if predicate value then (some value, accf + cf, accp + cp)
      else cfindRun predicate rest (accf + cf) (accp + cp)

/--
End-to-end instrumented run of
`Sequence.from(l).map(transform).filter(predicateF).find(predicateQ)`:
the chain is built lazily and `find` drives it, pulling one value at a time.
Returns the find result and the total `(transform, filter-predicate)`
invocation counts.
-/
def cfindInstr {α β : Type} (values : List α) (transform : α → Nat → β)
    (predicateF : β → Nat → Bool) (predicateQ : β → Bool) : Option β × Nat × Nat :=
  let mapped := cmapRun transform (csource values) 0
  let filtered := cfilterRun predicateF mapped 0 0 0
  match cfindRun predicateQ filtered.1 0 0 with
  | (some value, cf, cp) => (some value, cf, cp)
  | (none, cf, cp) => (none, cf + filtered.2.1, cp + filtered.2.2)

/--
Cost of pulling a single value (or discovering exhaustion) from an instrumented
stream whose trailing cost is zero — the pattern of `isEmpty()` and `first()`,
which start a traversal and stop after the first value.
-/
def cfirstCost {β : Type} : List (CElem β) → Nat × Nat
  | [] => (0, 0)
  | (_, cf, cp) :: _ => (cf, cp)

/--
`DropSequence` instrumented: the generator pulls every upstream value; the
costs of the first `n` (dropped) values accrue onto the next yielded element,
or into the trailing cost when nothing further is yielded.
-/
def cdropRun {β : Type} (n : Int) :
    List (CElem β) → Nat → Nat → Nat → List (CElem β) × Nat × Nat
  | [], _, accf, accp => ([], accf, accp)
  | (value, cf, cp) :: rest, dropped, accf, accp =>
      if (dropped : Int) ≥ n then
        ((value, accf + cf, accp + cp) :: (cdropRun n rest (dropped + 1) 0 0).1,
         (cdropRun n rest (dropped + 1) 0 0).2)
      else cdropRun n rest (dropped + 1) (accf + cf) (accp + cp)

/-- Total cost annotations of an instrumented stream. -/
def ctotal {β : Type} : List (CElem β) → Nat × Nat
  | [] => (0, 0)
  | (_, cf, cp) :: rest => (cf + (ctotal rest).1, cp + (ctotal rest).2)

/--
Transform invocations incurred by `Sequence.reduce` (lines 429–437) on the
receiver `Sequence.from(l).map(transform)`: the body runs `this.isEmpty()`,
then `this.first()`, then drains `this.drop(1)` — three separate traversals,
each starting a fresh instrumented run of the receiver (re-iteration
recomputes; nothing is memoized).
-/
def creduceMapCalls {α β : Type} (values : List α) (transform : α → Nat → β) : Nat :=
  let traversal1 := cmapRun transform (csource values) 0
  if values.isEmpty then (cfirstCost traversal1).1
  else
    let traversal2 := cmapRun transform (csource values) 0
    let traversal3 := cdropRun 1 (cmapRun transform (csource values) 0) 0 0 0
    (cfirstCost traversal1).1 + (cfirstCost traversal2).1
      + ((ctotal traversal3.1).1 + traversal3.2.1)

/--
Callback invocations performed by the node CONSTRUCTORS while a pipeline chain
is being built, before any terminal traversal: each subclass constructor only
stores its fields and computes the size hint (`super(sequence, ...size
arithmetic...)`); none applies its transform or predicate, so every node
contributes zero invocations beyond the nodes beneath it.
-/
def buildCalls {α : Type} : Sequence α → Nat
  | .base _ _ => 0
  | .generator _ _ _ => 0
  | .concat sequence other => buildCalls sequence + buildCalls other
  | .constrained _ _ => 0
  | .drop sequence _ => buildCalls sequence
  | .dropWhile sequence _ => buildCalls sequence
  | .filter sequence _ => buildCalls sequence
  | .map sequence _ => buildCalls sequence
  | .take sequence _ => buildCalls sequence
  | .takeWhile sequence _ => buildCalls sequence

/-! ## Helper lemmas -/

/-- Once `yielding` is true, `DropWhileSequence` yields every remaining value unchanged. -/
theorem dropWhileRun_yielding {α : Type} (predicate : α → Nat → Bool) (l : List α) :
    ∀ index : Nat, dropWhileRun predicate l true index = l := by
  induction l with
  | nil => intro index; rfl
  | cons value rest ih => intro index; simp [dropWhileRun, ih]

/-- For an index-blind predicate, `DropWhileSequence` computes `List.dropWhile`. -/
theorem dropWhileRun_eq_dropWhile {α : Type} (p : α → Bool) (l : List α) :
    ∀ index : Nat, dropWhileRun (fun v _ => p v) l false index = List.dropWhile p l := by
  induction l with
  | nil => intro index; rfl
  | cons value rest ih =>
      intro index
      by_cases h : p value
      · simp [dropWhileRun, h, ih]
      · simp [dropWhileRun, h, dropWhileRun_yielding]

/-- For an index-blind predicate, `TakeWhileSequence` computes `List.takeWhile`. -/
theorem takeWhileRun_eq_takeWhile {α : Type} (p : α → Bool) (l : List α) :
    ∀ index : Nat, takeWhileRun (fun v _ => p v) l true index = List.takeWhile p l := by
  induction l with
  | nil => intro index; rfl
  | cons value rest ih =>
      intro index
      by_cases h : p value
      · simp [takeWhileRun, h, ih]
      · simp [takeWhileRun, h]

/-- Drain pull count of `TakeSequence`: `min` of source length and `n - taken` plus one. -/
theorem takeRunCount_pulls {α : Type} (n : Int) (l : List α) :
    ∀ taken : Nat, (takeRunCount n l taken).2 = min l.length ((n - taken).toNat + 1) := by
  induction l with
  | nil => intro taken; simp [takeRunCount]
  | cons value rest ih =>
      intro taken
      by_cases h : (taken : Int) < n
      · simp only [takeRunCount, if_pos h, ih (taken + 1), List.length_cons]
        omega
      · simp only [takeRunCount, if_neg h, List.length_cons]
        omega

/-- The values component of the instrumented take run agrees with the plain run. -/
theorem takeRunCount_values {α : Type} (n : Int) (l : List α) :
    ∀ taken : Nat, (takeRunCount n l taken).1 = takeRun n l taken := by
  induction l with
  | nil => intro taken; rfl
  | cons value rest ih =>
      intro taken
      by_cases h : (taken : Int) < n
      · simp only [takeRunCount, takeRun, if_pos h, ih (taken + 1)]
      · simp only [takeRunCount, takeRun, if_neg h]

/-- The predicate-call count of a `dropWhile` drain equals the source length. -/
theorem dropWhileRunCount_calls {α : Type} (predicate : α → Nat → Bool) (l : List α) :
    ∀ (yielding : Bool) (index : Nat),
      (dropWhileRunCount predicate l yielding index).2 = l.length := by
  induction l with
  | nil => intro yielding index; rfl
  | cons value rest ih =>
      intro yielding index
      simp only [dropWhileRunCount, ih, List.length_cons]

/-- The values component of the instrumented dropWhile run agrees with the plain run. -/
theorem dropWhileRunCount_values {α : Type} (predicate : α → Nat → Bool) (l : List α) :
    ∀ (yielding : Bool) (index : Nat),
      (dropWhileRunCount predicate l yielding index).1 = dropWhileRun predicate l yielding index := by
  induction l with
  | nil => intro yielding index; rfl
  | cons value rest ih =>
      intro yielding index
      simp only [dropWhileRunCount, dropWhileRun, ih]

/-! ## Claim theorems -/

/--
Claim C1 — the claim is RIGHT and the code is wrong (code bug): concat is
documented to yield this sequence's values followed by the other's, but
`ConcatSequence` iterates `this.other["_values"]` — the other node's raw
`_values` field — instead of the other node itself, bypassing a derived node's
own iterator.  At the failing input
`Sequence.of(1).concat(Sequence.of(1, 2).map(v => v + 1))` the traversal yields
`[1, 1, 2]` (the pre-map upstream values of the right operand), not the
documented `[1, 2, 3]`.
-/
theorem concat_reaches_through_raw_source :
    Sequence.iter ((Sequence.ofValues [1]).concat
      ((Sequence.ofValues [1, 2]).map (fun v _ => v + 1))) = [1, 1, 2] ∧
    Sequence.iter (Sequence.ofValues [1]) ++
      Sequence.iter ((Sequence.ofValues [1, 2]).map (fun v _ => v + 1)) = [1, 2, 3] := by
  constructor <;> rfl

/--
Claim C2 counterexample: draining `take(1)` over a two-element source pulls 2
values from the source (not exactly 1), and draining `take(0)` over a
one-element source pulls 1 value (not none): the `for`-of loop pulls the next
upstream value before `taken++ < n` decides to `break`.
-/
theorem take_pull_claim_counterexample :
    (takeRunCount 1 [(10 : Nat), 20] 0).2 = 2 ∧ (takeRunCount 1 [(10 : Nat), 20] 0).2 ≠ 1 ∧
    (takeRunCount 0 [(10 : Nat)] 0).2 = 1 ∧ (takeRunCount 0 [(10 : Nat)] 0).2 ≠ 0 := by
  decide

/--
Claim C2, amended: draining `take(n)` (`n ≥ 0`) over a source holding `len`
values pulls exactly `min len (n + 1)` values from it — i.e. `take` over-pulls
by exactly one value beyond the `n` it yields whenever the source has more than
`n` values, and `take(0)` pulls one value from a non-empty source.  The values
yielded are those of the `TakeSequence` iterator.
-/
theorem take_pull_count {α : Type} (s : Sequence α) (l : List α) (n : Int) (_hn : 0 ≤ n) :
    (takeRunCount n l 0).2 = min l.length (n.toNat + 1) ∧
    (takeRunCount n l 0).1 = takeRun n l 0 ∧
    (takeRunCount n (Sequence.iter s) 0).1 = Sequence.iter (s.take n) := by
  refine ⟨?_, takeRunCount_values n l 0, ?_⟩
  · have h := takeRunCount_pulls n l 0
    simpa using h
  · rw [takeRunCount_values]
    rfl

/-- Claim C2 witness: draining `take(2)` over a four-element source pulls 3 values. -/
theorem take_pull_count_witness :
    (takeRunCount 2 [(10 : Nat), 20, 30, 40] 0).2 = 3 := by
  have h := take_pull_count (Sequence.ofValues [(10 : Nat), 20, 30, 40])
    [(10 : Nat), 20, 30, 40] 2 (by decide)
  rw [h.1]
  decide

/--
Claim C3 — the claim is RIGHT and the code is wrong (code bug): the async
`findIndex` tests `predicate(item)` without `await`, so a pending
`Promise<boolean>` — even one resolving to `false` — is truthy and index 0 is
returned; and the async `containsAll` tests `!this.contains(value)` without
`await`, so the pending promise returned by `contains` is always truthy and the
method always resolves to `true`, even when the sequence is empty and the value
absent.  The synchronous counterparts return `-1` and `false` on the same
inputs.
-/
theorem async_missing_awaits :
    AsyncSequence.containsAllRun ([] : List Nat) [1] = true ∧
    Sequence.containsAllModel (Sequence.emptySeq Nat) [1] = false ∧
    AsyncSequence.findIndexRun (fun _ => MaybeProm.promise false) [(5 : Nat)] 0 = 0 ∧
    findIndexRun (fun v => ((fun _ : Nat => MaybeProm.promise false) v).awaited) [(5 : Nat)] 0
      = -1 := by
  refine ⟨rfl, rfl, rfl, rfl⟩

/--
Claim C4: a pipeline built from a bare iterator (`Sequence.from`) or explicitly
constrained (`constrainOnce`) yields the source's values on its first
traversal; any traversal attempt with the `iterated` flag set fails with
IllegalState and its outcome differs from every successful traversal outcome —
in particular from a traversal that completed with zero values.
-/
theorem constrained_single_traversal {α : Type} (s : Sequence α) (cursor : List α) :
    constrainedIterOnce (Sequence.iter (Sequence.constrainOnce s)) false
      = (Except.ok (Sequence.iter s), true) ∧
    Sequence.iter (Sequence.constrainOnce s) = Sequence.iter s ∧
    constrainedIterOnce (Sequence.iter (Sequence.fromIterator cursor)) false
      = (Except.ok cursor, true) ∧
    (∀ c : List α, constrainedIterOnce c true = (Except.error illegalStateMessage, true)) ∧
    (∀ c values : List α, (constrainedIterOnce c true).1 ≠ Except.ok values) := by
  refine ⟨rfl, rfl, rfl, fun c => rfl, fun c values => ?_⟩
  simp [constrainedIterOnce]

/--
Claim C5: for a known-size receiver and `n ≥ 0`, `take(n).size() = min n count`,
`drop(n).size() = max 0 (count - n)`, `map(f).size() = count`; and for every
receiver, `filter(p).size()` is negative.
-/
theorem size_hint_composition {α : Type} (s : Sequence α) (transform : α → Nat → α)
    (n : Int) (hs : 0 ≤ Sequence.size s) (_hn : 0 ≤ n) :
    Sequence.size (s.take n) = min n (Sequence.size s) ∧
    Sequence.size (s.drop n) = max 0 (Sequence.size s - n) ∧
    Sequence.size (s.map transform) = Sequence.size s ∧
    (∀ (t : Sequence α) (predicate : α → Nat → Bool),
      Sequence.size (t.filter predicate) < 0) := by
  refine ⟨?_, ?_, rfl, fun t predicate => by simp [Sequence.size]⟩
  · simp only [Sequence.size]
    omega
  · simp only [Sequence.size]
    omega

/-- Claim C5 witness at a three-element known-size source and `n = 2`. -/
theorem size_hint_composition_witness :
    Sequence.size ((Sequence.ofValues [(10 : Nat), 20, 30]).take 2) = 2 ∧
    Sequence.size ((Sequence.ofValues [(10 : Nat), 20, 30]).drop 2) = 1 := by
  have h := size_hint_composition (Sequence.ofValues [(10 : Nat), 20, 30])
    (fun v _ => v) 2 (by decide) (by decide)
  refine ⟨?_, ?_⟩
  · rw [h.1]; decide
  · rw [h.2.1]; decide

/--
Claim C7: for an index-blind predicate, `dropWhile(p)` yields exactly the
suffix starting at (and including) the first value failing `p` — every later
value unconditionally, including ones satisfying `p` again — and `takeWhile(p)`
yields the prefix strictly before the first failing value and nothing after:
they compute `List.dropWhile` and `List.takeWhile` on the traversal.
-/
theorem dropWhile_takeWhile_semantics {α : Type} (s : Sequence α) (p : α → Bool) :
    Sequence.iter (s.dropWhile (fun v _ => p v)) = List.dropWhile p (Sequence.iter s) ∧
    Sequence.iter (s.takeWhile (fun v _ => p v)) = List.takeWhile p (Sequence.iter s) := by
  constructor
  · show dropWhileRun (fun v _ => p v) (Sequence.iter s) false 0 = _
    exact dropWhileRun_eq_dropWhile p (Sequence.iter s) 0
  · show takeWhileRun (fun v _ => p v) (Sequence.iter s) true 0 = _
    exact takeWhileRun_eq_takeWhile p (Sequence.iter s) 0

/--
Claim C10: a full traversal of `dropWhile(p)` invokes the predicate once per
value pulled from the source — also after yielding has begun — so the total
invocation count equals the number of source values traversed; the values
produced are those of the `DropWhileSequence` iterator.
-/
theorem dropWhile_predicate_call_count {α : Type} (s : Sequence α)
    (predicate : α → Nat → Bool) :
    (dropWhileRunCount predicate (Sequence.iter s) false 0).2 = (Sequence.iter s).length ∧
    (dropWhileRunCount predicate (Sequence.iter s) false 0).1
      = Sequence.iter (s.dropWhile predicate) := by
  refine ⟨dropWhileRunCount_calls predicate (Sequence.iter s) false 0, ?_⟩
  rw [dropWhileRunCount_values]
  rfl

/--
Claim C8: `toString()` returns exactly `"Sequence (empty)"` when the traversal
yields no values, exactly `"Sequence (N)"` with the cached size for a non-empty
sequence with non-negative cached size, exactly `"Sequence (unknown)"` for a
non-empty sequence with negative cached size; and the async variant's emptiness
branch holds if and only if the cached size hint is exactly 0 (it is a function
of the size hint alone — no traversal).
-/
theorem toString_literal_forms {α : Type} (s : Sequence α) (size : Int) :
    (Sequence.iter s = [] → Sequence.toStringModel s = "Sequence (empty)") ∧
    (Sequence.iter s ≠ [] → 0 ≤ Sequence.size s →
      Sequence.toStringModel s
        = "Sequence (" ++ ToString.toString (Sequence.size s) ++ ")") ∧
    (Sequence.iter s ≠ [] → Sequence.size s < 0 →
      Sequence.toStringModel s = "Sequence (unknown)") ∧
    (AsyncSequence.toStringModel size = "AsyncSequence (empty)" ↔ size = 0) := by
  have hEmpty : Sequence.iter s = [] → Sequence.isEmptyModel s = true := by
    intro h; simp [Sequence.isEmptyModel, h]
  have hNonEmpty : Sequence.iter s ≠ [] → Sequence.isEmptyModel s = false := by
    intro h
    unfold Sequence.isEmptyModel
    cases hiter : Sequence.iter s with
    | nil => exact absurd hiter h
    | cons a t => rfl
  refine ⟨?_, ?_, ?_, ?_⟩
  · intro h
    simp [Sequence.toStringModel, hEmpty h]
  · intro h hsz
    have hlt : ¬ Sequence.size s < 0 := by omega
    simp [Sequence.toStringModel, hNonEmpty h, hlt]
  · intro h hsz
    simp [Sequence.toStringModel, hNonEmpty h, hsz]
  · constructor
    · intro h
      by_contra hne0
      unfold AsyncSequence.toStringModel at h
      rw [if_neg hne0] at h
      have hd := congrArg String.data h
      simp only [String.data_append] at hd
      simp at hd
    · intro h
      rw [h]
      rfl

/--
Claim C8 witness: the three synchronous literal forms and the async emptiness
branch at concrete sequences.
-/
theorem toString_literal_forms_witness :
    Sequence.toStringModel (Sequence.emptySeq Nat) = "Sequence (empty)" ∧
    Sequence.toStringModel (Sequence.ofValues [(7 : Nat)]) = "Sequence (1)" ∧
    Sequence.toStringModel ((Sequence.ofValues [(7 : Nat)]).filter (fun _ _ => true))
      = "Sequence (unknown)" ∧
    AsyncSequence.toStringModel 0 = "AsyncSequence (empty)" := by
  refine ⟨?_, ?_, ?_, ?_⟩
  · exact (toString_literal_forms (Sequence.emptySeq Nat) 0).1 rfl
  · have h := (toString_literal_forms (Sequence.ofValues [(7 : Nat)]) 0).2.1
      (by decide) (by decide)
    rw [h]
    decide
  · exact (toString_literal_forms ((Sequence.ofValues [(7 : Nat)]).filter (fun _ _ => true)) 0).2.2.1
      (by decide) (by decide)
  · exact (toString_literal_forms (Sequence.emptySeq Nat) 0).2.2.2.mpr rfl

/-! ## Laziness bookkeeping for the instrumented find -/

/--
Reference trace of the demand-driven execution of `find` over
`map` + `filter` (proof device): the first source element whose transformed
value passes both the filter predicate and the find predicate is the match; the
second component counts the source elements consumed (each costing one
`transform` and one filter-`predicate` call).
-/
def fusedFind {α β : Type} (transform : α → β) (predicateF predicateQ : β → Bool) :
    List α → Option β × Nat
  | [] => (none, 0)
  | value :: rest =>
      if predicateF (transform value) && predicateQ (transform value) then
        (some (transform value), 1)
      else
        ((fusedFind transform predicateF predicateQ rest).1,
         (fusedFind transform predicateF predicateQ rest).2 + 1)

/-- The filter-then-find composition on an instrumented stream (proof device). -/
def cfilterFindAux {β : Type} (predicateF : β → Nat → Bool) (predicateQ : β → Bool)
    (ann : List (CElem β)) (index accf accp findf findp : Nat) : Option β × Nat × Nat :=
  match cfindRun predicateQ (cfilterRun predicateF ann index accf accp).1 findf findp with
  | (some value, cf, cp) => (some value, cf, cp)
  | (none, cf, cp) =>
      (none, cf + (cfilterRun predicateF ann index accf accp).2.1,
             cp + (cfilterRun predicateF ann index accf accp).2.2)

/-- The instrumented pipeline run is the filter-then-find composition of its stages. -/
theorem cfindInstr_eq_aux {α β : Type} (l : List α) (transform : α → Nat → β)
    (predicateF : β → Nat → Bool) (predicateQ : β → Bool) :
    cfindInstr l transform predicateF predicateQ
      = cfilterFindAux predicateF predicateQ (cmapRun transform (csource l) 0) 0 0 0 0 0 := rfl

/-- The instrumented map stage over the raw source annotates each element with one transform call. -/
theorem cmapRun_csource {α β : Type} (f : α → β) (l : List α) :
    ∀ index : Nat,
      cmapRun (fun v _ => f v) (csource l) index = l.map (fun v => (f v, 1, 0)) := by
  induction l with
  | nil => intro index; rfl
  | cons value rest ih =>
      intro index
      simp only [csource, cmapRun, List.map_cons, ih (index + 1)]

/-- Core invariant: the staged instrumented run computes the fused reference trace. -/
theorem cfilterFindAux_fused {α β : Type} (f : α → β) (p q : β → Bool) (l : List α) :
    ∀ (index accf accp findf findp : Nat),
      cfilterFindAux (fun v _ => p v) q (l.map (fun v => (f v, 1, 0)))
          index accf accp findf findp
        = ((fusedFind f p q l).1,
           findf + accf + (fusedFind f p q l).2,
           findp + accp + (fusedFind f p q l).2) := by
  induction l with
  | nil =>
      intro index accf accp findf findp
      simp [cfilterFindAux, cfilterRun, cfindRun, fusedFind]
  | cons value rest ih =>
      intro index accf accp findf findp
      by_cases hp : p (f value)
      · by_cases hq : q (f value)
        · simp only [List.map_cons, cfilterFindAux, cfilterRun, cfindRun, fusedFind, hp, hq,
            if_pos, Bool.and_self, if_true]
          simp [fusedFind, hp, hq]
          omega
        · have step := ih (index + 1) 0 0 (findf + (accf + 1)) (findp + (accp + 0 + 1))
          simp only [cfilterFindAux] at step ⊢
          simp only [List.map_cons, cfilterRun, cfindRun, hp, if_true, hq, if_false,
            Bool.false_eq_true] at step ⊢
          rw [step]
          simp [fusedFind, hp, hq]
          omega
      · have step := ih (index + 1) (accf + 1) (accp + 0 + 1) findf findp
        simp only [cfilterFindAux] at step ⊢
        simp only [List.map_cons, cfilterRun, hp, Bool.false_eq_true, if_false] at step ⊢
        rw [step]
        simp [fusedFind, hp]
        omega

/-- The fused reference trace at a position where a match exists. -/
theorem fusedFind_found {α β : Type} (f : α → β) (p q : β → Bool) :
    ∀ (l : List α) (hj : l.findIdx (fun v => p (f v) && q (f v)) < l.length),
      fusedFind f p q l
        = (some (f (l.get ⟨l.findIdx (fun v => p (f v) && q (f v)), hj⟩)),
           l.findIdx (fun v => p (f v) && q (f v)) + 1)
  | [], hj => by simp at hj
  | value :: rest, hj => by
      by_cases h : p (f value) && q (f value)
      · simp [fusedFind, h, List.findIdx_cons]
      · have hj' : rest.findIdx (fun v => p (f v) && q (f v)) < rest.length := by
          simp only [List.findIdx_cons, h, Bool.false_eq_true, cond_false,
            List.length_cons] at hj
          omega
        have step := fusedFind_found f p q rest hj'
        simp [fusedFind, h, List.findIdx_cons, step]

/-- The fused reference trace when no element matches: the whole source is consumed. -/
theorem fusedFind_none {α β : Type} (f : α → β) (p q : β → Bool) :
    ∀ l : List α, l.findIdx (fun v => p (f v) && q (f v)) = l.length →
      fusedFind f p q l = (none, l.length)
  | [], _ => rfl
  | value :: rest, h => by
      by_cases hc : p (f value) && q (f value)
      · simp [List.findIdx_cons, hc] at h
      · have h' : rest.findIdx (fun v => p (f v) && q (f v)) = rest.length := by
          simp only [List.findIdx_cons, hc, Bool.false_eq_true, cond_false,
            List.length_cons] at h
          omega
        simp [fusedFind, hc, fusedFind_none f p q rest h', List.length_cons]

/-- No node constructor invokes a caller-supplied callback. -/
theorem buildCalls_eq_zero {α : Type} (s : Sequence α) : buildCalls s = 0 := by
  induction s with
  | base values sized => rfl
  | generator initial nextValue fuel => rfl
  | concat sequence other ih1 ih2 => simp [buildCalls, ih1, ih2]
  | constrained cursor size => rfl
  | drop sequence n ih => simpa [buildCalls] using ih
  | dropWhile sequence predicate ih => simpa [buildCalls] using ih
  | filter sequence predicate ih => simpa [buildCalls] using ih
  | map sequence transform ih => simpa [buildCalls] using ih
  | take sequence n ih => simpa [buildCalls] using ih
  | takeWhile sequence predicate ih => simpa [buildCalls] using ih

/--
Claim C6: building a chain of intermediate nodes invokes zero caller-supplied
callbacks (constructors only do size bookkeeping); and when `find` drives a
lazily built `map` + `filter` chain, the transform and the filter predicate are
each invoked exactly once per source value inspected up to and including the
match — `matchIndex + 1` invocations, never more than the source length, and
the full source length only when nothing matches.
-/
theorem laziness_and_short_circuit {α β : Type} :
    (∀ s : Sequence α, buildCalls s = 0) ∧
    (∀ (l : List α) (f : α → β) (p q : β → Bool)
        (hj : l.findIdx (fun v => p (f v) && q (f v)) < l.length),
        cfindInstr l (fun v _ => f v) (fun v _ => p v) q
          = (some (f (l.get ⟨l.findIdx (fun v => p (f v) && q (f v)), hj⟩)),
             l.findIdx (fun v => p (f v) && q (f v)) + 1,
             l.findIdx (fun v => p (f v) && q (f v)) + 1) ∧
        l.findIdx (fun v => p (f v) && q (f v)) + 1 ≤ l.length) ∧
    (∀ (l : List α) (f : α → β) (p q : β → Bool),
        l.findIdx (fun v => p (f v) && q (f v)) = l.length →
        cfindInstr l (fun v _ => f v) (fun v _ => p v) q = (none, l.length, l.length)) := by
  refine ⟨buildCalls_eq_zero, ?_, ?_⟩
  · intro l f p q hj
    have h1 := cfindInstr_eq_aux l (fun v _ => f v) (fun v _ => p v) q
    rw [cmapRun_csource] at h1
    have h2 := cfilterFindAux_fused f p q l 0 0 0 0 0
    refine ⟨?_, by omega⟩
    rw [h1, h2, fusedFind_found f p q l hj]
    simp
  · intro l f p q h
    have h1 := cfindInstr_eq_aux l (fun v _ => f v) (fun v _ => p v) q
    rw [cmapRun_csource] at h1
    have h2 := cfilterFindAux_fused f p q l 0 0 0 0 0
    rw [h1, h2, fusedFind_none f p q l h]
    simp

/--
Claim C6 witness: `find(v => v >= 30)` over `of(1,2,3,4).map(v => v*10).filter(v => v >= 20)`
matches the third source value; transform and filter predicate are each invoked
exactly 3 times, not 4.
-/
theorem laziness_and_short_circuit_witness :
    cfindInstr [(1 : Nat), 2, 3, 4] (fun v _ => v * 10)
        (fun v _ => decide (20 ≤ v)) (fun v => decide (30 ≤ v))
      = (some 30, 3, 3) := by
  have h := (laziness_and_short_circuit (α := Nat) (β := Nat)).2.1
    [(1 : Nat), 2, 3, 4] (fun v => v * 10) (fun v => decide (20 ≤ v))
    (fun v => decide (30 ≤ v)) (by decide)
  rw [h.1]
  decide

/-! ## Traversal counting for `reduce` -/

/-- The instrumented map stage annotates a whole run with one transform call per source value. -/
theorem ctotal_cmapRun {α β : Type} (transform : α → Nat → β) (l : List α) :
    ∀ index : Nat, ctotal (cmapRun transform (csource l) index) = (l.length, 0) := by
  induction l with
  | nil => intro index; rfl
  | cons value rest ih =>
      intro index
      simp only [csource, cmapRun, ctotal, ih (index + 1), List.length_cons, Prod.mk.injEq]
      exact ⟨by omega, trivial⟩

/-- Draining `drop(n)` incurs the full upstream cost: nothing escapes the drain. -/
theorem cdropRun_total {β : Type} (n : Int) (ann : List (CElem β)) :
    ∀ (dropped accf accp : Nat),
      (ctotal (cdropRun n ann dropped accf accp).1).1 + (cdropRun n ann dropped accf accp).2.1
          = accf + (ctotal ann).1 ∧
      (ctotal (cdropRun n ann dropped accf accp).1).2 + (cdropRun n ann dropped accf accp).2.2
          = accp + (ctotal ann).2 := by
  induction ann with
  | nil => intro dropped accf accp; simp [cdropRun, ctotal]
  | cons e rest ih =>
      obtain ⟨value, cf, cp⟩ := e
      intro dropped accf accp
      by_cases h : (dropped : Int) ≥ n
      · have step := ih (dropped + 1) 0 0
        simp only [cdropRun, if_pos h, ctotal] at step ⊢
        omega
      · have step := ih (dropped + 1) (accf + cf) (accp + cp)
        simp only [cdropRun, if_neg h, ctotal] at step ⊢
        omega

/-- Pulling the first value of a non-empty instrumented map-over-source chain costs one transform call. -/
theorem cfirstCost_cmapRun_cons {α β : Type} (transform : α → Nat → β) (value : α)
    (rest : List α) (index : Nat) :
    (cfirstCost (cmapRun transform (csource (value :: rest)) index)).1 = 1 := rfl

/--
Claim C9: `reduce` performs three separate traversals of its receiver
(`isEmpty()`, `first()`, and the fold over `drop(1)`).  Consequently (a) the
very first `reduce` call on a non-empty constrained receiver fails with
IllegalState — the `first()` traversal trips the guard set by the `isEmpty()`
traversal — while an empty constrained receiver returns the null sentinel; and
(b) on an unconstrained `map` chain over a non-empty source of `len` values the
transform is re-invoked in every traversal: `len + 2` invocations in total
(1 for `isEmpty`, 1 for `first`, `len` for the drained `drop(1)`), instead of
the `len` of a single traversal.
-/
theorem reduce_triple_traversal {α β γ : Type} (cursor : List α) (l : List β)
    (operation : α → α → Nat → α) (transform : β → Nat → γ)
    (hc : cursor ≠ []) (hl : l ≠ []) :
    Sequence.reduceConstrained cursor operation = Except.error illegalStateMessage ∧
    Sequence.reduceConstrained ([] : List α) operation = Except.ok none ∧
    creduceMapCalls l transform = l.length + 2 := by
  refine ⟨?_, rfl, ?_⟩
  · cases cursor with
    | nil => exact absurd rfl hc
    | cons value rest => rfl
  · cases l with
    | nil => exact absurd rfl hl
    | cons value rest =>
        have h3 := cdropRun_total 1 (cmapRun transform (csource (value :: rest)) 0) 0 0 0
        have h4 := ctotal_cmapRun transform (value :: rest) 0
        rw [h4] at h3
        simp only [creduceMapCalls, List.isEmpty_cons, Bool.false_eq_true, if_false,
          cfirstCost_cmapRun_cons]
        simp only [List.length_cons] at h3 ⊢
        omega

/--
Claim C9 witness: the first `reduce` on a non-empty constrained cursor throws,
and `reduce` over `of(1,2,3).map(v => v+1)` invokes the transform 5 times
(3 + 2), not 3.
-/
theorem reduce_triple_traversal_witness :
    Sequence.reduceConstrained [(1 : Nat), 2, 3] (fun acc v _ => acc + v)
      = Except.error illegalStateMessage ∧
    creduceMapCalls [(1 : Nat), 2, 3] (fun v _ => v + 1) = 5 := by
  have h := reduce_triple_traversal [(1 : Nat), 2, 3] [(1 : Nat), 2, 3]
    (fun acc v _ => acc + v) (fun v _ => v + 1) (by decide) (by decide)
  refine ⟨h.1, ?_⟩
  rw [h.2.2]
  rfl

end TinyLazySeq
